import Mathlib

/-!
Verification development for the GitRecombo discovery/scoring pipeline.

Shallow embedding of the core pipeline of `discover.py`,
`github_search_planner.py` and `gitrecombo/repo_cache.py`:

* aggregation of search results by repository identity (`discover`, step 1);
* the novelty score (`novelty_score`);
* the health score with its hard gates (`discover`, step 2);
* the greedy diversity-aware selector and its fallback (`discover`, step 4);
* TTL-checked README cache reads (`RepoCache.cache_readme` / `get_readme`);
* the retrying API client (`gh_get`);
* the rate limiter (`SearchPlanner.wait_if_needed`);
* concept extraction (`extract_concepts`).

Python floats are modelled as `ℝ` where transcendental functions
(`math.tanh`, `math.sqrt`) occur, and as `ℚ` elsewhere; machine floating
point rounding is not modelled.  All container mutation is modelled by
explicit state passing.
-/

namespace GitRecombo

/-! ## Step 1 aggregation (`discover.py` lines 334-347)

`search_repos` returns one dict per repository; `discover` recomputes
`novelty_score`, applies the license filter, and keeps, per `full_name`,
the instance with the strictly larger novelty score.  The novelty score
is carried as a field here (the code stores it on the dict before
aggregating). -/

structure Repo where
  full_name : String
  html_url : String
  description : String
  language : String
  license : Option String
  stargazers_count : Nat
  created_at : String
  pushed_at : String
  fork : Bool
  forks_count : Nat
  novelty_score : ℚ
deriving DecidableEq, Repr

/-- Python `lic = (r.get("license") or "")` (the `.strip()` of the already
plain SPDX id is the identity on the inputs modelled here). -/
def licOf (r : Repo) : String := r.license.getD ("")

/-- The `continue` condition of the aggregation loop, negated:
`if licenses and (not lic or lic not in licenses): continue`. -/
def licPasses (licenses : List String) (r : Repo) : Bool :=
  !(!licenses.isEmpty && (licOf r == "" || !licenses.contains (licOf r)))

/-- One aggregation step, described pointwise:
`if key not in agg or r["novelty_score"] > agg[key]["novelty_score"]: agg[key] = r`. -/
def aggStep (licenses : List String) (m : String → Option Repo) (r : Repo) :
    String → Option Repo := fun k =>
  if licPasses licenses r then
    match m r.full_name with
    | none => if k = r.full_name then some r else m k
    | some prev =>
      if prev.novelty_score < r.novelty_score then
        (if k = r.full_name then some r else m k)
      else m k
  else m k

/-- The license-passing records of the stream that carry identity `k`,
in stream order. -/
def keyFilter (licenses : List String) (k : String) : List Repo → List Repo
  | [] => []
  | r :: rest =>
    if r.full_name = k ∧ licPasses licenses r then r :: keyFilter licenses k rest
    else keyFilter licenses k rest

/-- The aggregation of the flattened stream of search results (queries are
processed in order, and within a query the results in order, so the whole
run is one list). -/
def aggregate (licenses : List String) (rs : List Repo) : String → Option Repo :=
  rs.foldl (aggStep licenses) (fun _ => none)

/-- The evolution of a single key of the aggregation map: keep the incumbent
unless the newcomer has a strictly larger novelty score. -/
def bestStep (acc : Option Repo) (r : Repo) : Option Repo :=
  match acc with
  | none => some r
  | some p => if p.novelty_score < r.novelty_score then some r else some p

/-! ## Novelty score (`discover.py` lines 40-49)

`days_since` always returns a value that is at least `1e-6` (its
`max(..., 1e-6)` on success, `3650.0` on a parse failure), so
`created_days` and `pushed_days` below range over such reals.  `stars`
and `forks` are the non-negative GitHub counters. -/

noncomputable def noveltyScore (stars forks : ℕ) (created_days pushed_days : ℝ)
    (fork : Bool) : ℝ :=
  let fork_penalty : ℝ := if fork then 0.2 else 0.0
  let sv_norm := Real.tanh (((stars : ℝ) / max created_days 1e-6) / 50)
  let fr_norm := 1 / (1 + pushed_days)
  let base := 0.55 * sv_norm + 0.40 * fr_norm + 0.05 * Real.tanh ((forks : ℝ) / 50)
  max 0 (min 1 (base - fork_penalty))

/-! ## Health score (`discover.py` lines 365-368) -/

def healthScore (require_ci require_tests ci ts rel man : Bool) : ℚ :=
  let h : ℚ := 0.25 * (if ci then 1 else 0) + 0.25 * (if ts then 1 else 0)
             + 0.25 * (if rel then 1 else 0) + 0.25 * (if man then 1 else 0)
  let h := if require_ci && !ci then 0 else h
  let h := if require_tests && !ts then 0 else h
  h

/-- Number of true probe indicators. -/
def indicatorCount (ci ts rel man : Bool) : ℕ :=
  (if ci then 1 else 0) + (if ts then 1 else 0) + (if rel then 1 else 0)
    + (if man then 1 else 0)

/-! ## Selector (`discover.py` lines 397-446)

A probed candidate carries the four signal fields read by `score_item`,
plus the `_drop` flag set by the health filter.  Embedding vectors live in
the side table `vecs` (the Python dict keyed by `full_name`). -/

structure Cand where
  full_name : String
  novelty_score : ℝ
  health_score : ℝ
  relevance : ℝ
  author_rep : ℝ
  drop : Bool

structure Weights where
  novelty : ℝ
  health : ℝ
  relevance : ℝ
  author : ℝ
  diversity : ℝ

/-- Function `cosine` from `discover` (lines 397-403): `0.0` on empty or
length-mismatched input or a zero norm, else the normalized dot product. -/
noncomputable def cosine (a b : List ℝ) : ℝ :=
  if a = [] ∨ b = [] ∨ a.length ≠ b.length then 0
  else if Real.sqrt ((a.map (fun x => x * x)).sum) = 0
          ∨ Real.sqrt ((b.map (fun x => x * x)).sum) = 0 then 0
  else (List.zipWith (fun x y => x * y) a b).sum
        / (Real.sqrt ((a.map (fun x => x * x)).sum)
            * Real.sqrt ((b.map (fun x => x * x)).sum))

/-- The `selected_vecs` accumulator of the greedy loop as a function of the
`selected` list: the loop appends `vecs[best["full_name"]]` exactly when the
pick has an embedding. -/
def selVecsOf (vecs : String → Option (List ℝ)) (selected : List Cand) :
    List (List ℝ) :=
  selected.filterMap (fun c => vecs c.full_name)

/-- The per-candidate diversity bonus of one greedy iteration
(`discover.py` lines 424-433): `max(0, 1 - avg_sim)` when the candidate is
in `vecs` and `selected_vecs` is non-empty, `1.0` when `selected_vecs` is
empty, `0.0` otherwise. -/
noncomputable def divBonus (vecs : String → Option (List ℝ))
    (selVecs : List (List ℝ)) (c : Cand) : ℝ :=
  match vecs c.full_name, selVecs with
  | some v, w :: ws =>
    max 0 (1 - (((w :: ws).map (fun u => cosine v u)).sum
                  / ((((w :: ws).map (fun u => cosine v u)).length : ℝ))))
  | _, [] => 1
  | none, _ :: _ => 0

/-- Python `score_item` (`discover.py` lines 415-420). -/
noncomputable def scoreItem (w : Weights) (it : Cand) (diversity_bonus : ℝ) : ℝ :=
  w.novelty * it.novelty_score + w.health * it.health_score
    + w.relevance * it.relevance + w.author * it.author_rep
    + w.diversity * diversity_bonus

/-- The inner argmax of one loop iteration: Python scans `pool` keeping the
first candidate whose score strictly beats the running best (seeded with
`-1`), then `pool.remove(best)` drops that candidate.  This recursion
returns the same pick together with the remaining pool. -/
noncomputable def extractBest (score : Cand → ℝ) :
    List Cand → ℝ → Option (Cand × List Cand)
  | [], _ => none
  | c :: rest, bestS =>
    if bestS < score c then
      match extractBest score rest (score c) with
      | none => some (c, rest)
      | some (b, rest2) => some (b, c :: rest2)
    else
      match extractBest score rest bestS with
      | none => none
      | some (b, rest2) => some (b, c :: rest2)

/-- The greedy selection loop (`discover.py` lines 422-443), with explicit
fuel (the loop removes one pool element per iteration, so `pool.length`
fuel is enough). -/
noncomputable def greedyLoop (w : Weights) (vecs : String → Option (List ℝ)) :
    ℕ → List Cand → List Cand → List (List ℝ) → List Cand
  | 0, _, selected, _ => selected
  | _ + 1, [], selected, _ => selected
  | fuel + 1, c :: pool, selected, selVecs =>
    if selected.length < 6 then
      match extractBest (fun cand => scoreItem w cand (divBonus vecs selVecs cand))
          (c :: pool) (-1) with
      | none => selected
      | some (best, rest) =>
        greedyLoop w vecs fuel rest (selected ++ [best])
          (selVecs ++ (vecs best.full_name).toList)
    else selected

/-- Stable insertion for a descending sort: the new element goes after
every element whose key is at least as large, so elements with equal keys
keep their original relative order — the behavior of Python's stable
`sorted(..., reverse=True)`. -/
def insertDescBy {α β : Type} [LinearOrder β] (key : α → β) (a : α) :
    List α → List α
  | [] => [a]
  | x :: xs => if key a ≤ key x then x :: insertDescBy key a xs else a :: x :: xs

/-- Stable descending sort by key (Python `sorted(..., key=..., reverse=True)`). -/
def sortDescBy {α β : Type} [LinearOrder β] (key : α → β) (l : List α) : List α :=
  l.foldl (fun acc a => insertDescBy key a acc) []

/-- The Selector (`discover.py` lines 411-446): filter the probed set by
the drop flag, run the greedy loop, and if fewer than 3 candidates were
selected fall back to the top-3 of the probed set by novelty
(`[c for c in candidates if c in probe]` is `probe` itself, since `probe`
is a prefix of the novelty-sorted `candidates`). -/
noncomputable def select (w : Weights) (vecs : String → Option (List ℝ))
    (probe : List Cand) : List Cand :=
  let pool := probe.filter (fun c => !c.drop)
  let selected := greedyLoop w vecs pool.length pool [] []
  if selected.length < 3 then
    (sortDescBy (fun c => c.novelty_score) probe).take 3
  else selected

/-! Concrete selector inputs used below.  `cexC` is a candidate whose only
non-zero signal is `relevance = -1` (the cosine of two opposite embedding
vectors, so a reachable probed value); with weights `(0,0,1,0,0)` every
pool score equals the `-1` sentinel that seeds the argmax. -/

def noVecs : String → Option (List ℝ) := fun _ => none

def cexW : Weights := ⟨0, 0, 1, 0, 0⟩

def cexC : Cand :=
  { full_name := "stealth/negrel", novelty_score := 0, health_score := 0
    relevance := -1, author_rep := 0, drop := false }

def cexProbe : List Cand := List.replicate 6 cexC

def wZero : Weights := ⟨0, 0, 0, 0, 0⟩

def candA : Cand :=
  { full_name := "wit/a", novelty_score := 0, health_score := 0
    relevance := 0, author_rep := 0, drop := false }

def probeA : List Cand := List.replicate 6 candA

def candB1 : Cand :=
  { full_name := "wit/b1", novelty_score := 0, health_score := 0
    relevance := 0, author_rep := 0, drop := false }

def candB2 : Cand :=
  { full_name := "wit/b2", novelty_score := 0, health_score := 0
    relevance := 0, author_rep := 0, drop := false }

def candB3 : Cand :=
  { full_name := "wit/b3", novelty_score := 0, health_score := 0
    relevance := 0, author_rep := 0, drop := true }

def probeB : List Cand := [candB1, candB2, candB3]

def vecsC5 : String → Option (List ℝ) :=
  fun s => if s = "emb/a" then some [1] else none

def candEmb : Cand :=
  { full_name := "emb/a", novelty_score := 0, health_score := 0
    relevance := 0, author_rep := 0, drop := false }

def candNoEmb : Cand :=
  { full_name := "plain/b", novelty_score := 0, health_score := 0
    relevance := 0, author_rep := 0, drop := false }

/-! ## README cache (`gitrecombo/repo_cache.py`, `cache_readme` lines
174-184 and `get_readme` lines 271-291)

The `readmes` table has `repo_full_name` as primary key, so
`INSERT OR REPLACE` drops any previous row with the same key.  Times are
`time.time()` floats, modelled as `ℚ`. -/

structure ReadmeRow where
  content : String
  cached_at : ℚ
  ttl_hours : ℚ
deriving DecidableEq

/-- SQL `INSERT OR REPLACE INTO readmes ... VALUES (name, content, time.time(), ttl)`. -/
def cache_readme (tbl : List (String × ReadmeRow)) (repo_full_name content : String)
    (now ttl_hours : ℚ) : List (String × ReadmeRow) :=
  (repo_full_name, ⟨content, now, ttl_hours⟩)
    :: tbl.filter (fun kv => kv.1 ≠ repo_full_name)

/-- SQL `SELECT content, cached_at, ttl_hours FROM readmes WHERE repo_full_name = ?`. -/
def readmeRow (tbl : List (String × ReadmeRow)) (repo_full_name : String) :
    Option ReadmeRow :=
  (tbl.find? (fun kv => kv.1 == repo_full_name)).map (fun kv => kv.2)

/-- Python `RepoCache.get_readme`: `None` when no row; when `check_ttl`, a row with
`now - cached_at > ttl_hours * 3600` reads as `None` (expired); otherwise
the stored content. -/
def get_readme (tbl : List (String × ReadmeRow)) (repo_full_name : String)
    (now : ℚ) (check_ttl : Bool) : Option String :=
  match readmeRow tbl repo_full_name with
  | none => none
  | some row =>
    if check_ttl ∧ row.ttl_hours * 3600 < now - row.cached_at then none
    else some row.content

/-! ## API client (`discover.py` `gh_get`, lines 65-146)

One attempt per loop iteration; the response of attempt `i` is `resp i`
and the value of `time.time()` during attempt `i` is `now i`.  The
planner pacing (`wait_if_needed` / `record_request`) is modelled
separately (see `SearchPlanner`); `sleeps` records the client's own
`time.sleep` calls.  `requests.Response.raise_for_status` raises exactly
for status >= 400. -/

structure Resp where
  status : ℕ
  rateLimitBody : Bool
  remaining : ℤ
  reset_time : ℚ
  body : String
deriving DecidableEq

inductive GhOutcome
  | ok (body : String)
  | rateLimited
  | httpError (status : ℕ)
  | exhausted
deriving DecidableEq

/-- Python `r.status_code == 403 and "rate limit" in r.text.lower()`. -/
def is403RL (r : Resp) : Bool := r.status == 403 && r.rateLimitBody

/-- The `for attempt in range(retry)` loop, indexed by the number of
attempts remaining (`attempt = retry - remaining`); `.exhausted` is the
final `raise RuntimeError(... failed after retries)`, reachable only when
`retry = 0`. -/
def ghGetLoop (resp : ℕ → Resp) (now : ℕ → ℚ) (retry : ℕ) :
    ℕ → List ℚ → GhOutcome × List ℚ
  | 0, sleeps => (.exhausted, sleeps)
  | m + 1, sleeps =>
    let attempt := retry - (m + 1)
    let r := resp attempt
    if is403RL r then
      if 0 < m then
        ghGetLoop resp now retry m
          (sleeps ++ [max (r.reset_time - now attempt) 60 + 2])
      else (.rateLimited, sleeps)
    else
      let sleeps2 :=
        if r.remaining ≤ 2 ∧ 0 < r.reset_time ∧ 0 < r.reset_time - now attempt
        then sleeps ++ [r.reset_time - now attempt + 2] else sleeps
      if 400 ≤ r.status then (.httpError r.status, sleeps2)
      else (.ok r.body, sleeps2)

def ghGet (resp : ℕ → Resp) (now : ℕ → ℚ) (retry : ℕ) : GhOutcome × List ℚ :=
  ghGetLoop resp now retry retry []

/-! Concrete API-client schedules used by the C7 witness. -/

def respRL : ℕ → Resp := fun _ =>
  { status := 403, rateLimitBody := true, remaining := 5000, reset_time := 0, body := "" }

def respErr : ℕ → Resp := fun i =>
  if i = 0 then
    { status := 403, rateLimitBody := true, remaining := 5000, reset_time := 0, body := "" }
  else
    { status := 500, rateLimitBody := false, remaining := 5000, reset_time := 0, body := "boom" }

def respOk : ℕ → Resp := fun _ =>
  { status := 200, rateLimitBody := false, remaining := 5000, reset_time := 0, body := "payload" }

/-- A non-2xx response that `raise_for_status` does not raise on:
a 304 Not Modified. -/
def respNotMod : ℕ → Resp := fun _ =>
  { status := 304, rateLimitBody := false, remaining := 5000, reset_time := 0, body := "cached" }

def nowZ : ℕ → ℚ := fun _ => 0

/-! ## Rate limiter (`github_search_planner.py`)

`RateLimitState` (lines 25-49) and `SearchPlanner.wait_if_needed`
(lines 72-116).  `now` is `time.time()` sampled at the top of
`wait_if_needed`; `now2` is the second `time.time()` sample taken after
sleeping in the self-imposed-RPM branch.  The returned triple is
(seconds waited, the durations passed to `time.sleep`, the mutated
planner). -/

structure RateLimitState where
  limit : ℤ
  remaining : ℤ
  reset_time : ℚ
  last_request_time : ℚ
  requests_this_window : ℕ
  window_start : ℚ
deriving DecidableEq

/-- Python `RateLimitState.should_wait`: wait iff the server-reported remaining
quota is at or below the safety margin, for `max(0, reset_time - now)`. -/
def RateLimitState.should_wait (st : RateLimitState) (now : ℚ)
    (safety_margin : ℤ) : Bool × ℚ :=
  if st.remaining ≤ safety_margin then (true, max 0 (st.reset_time - now))
  else (false, 0)

inductive Endpoint
  | search
  | code_search
  | rest
deriving DecidableEq

structure SearchPlanner where
  search_state : RateLimitState
  code_search_state : RateLimitState
  rest_state : RateLimitState
  search_rpm : ℕ
  code_search_rpm : ℕ
  min_request_interval : ℚ
deriving DecidableEq

/-- The dataclass field defaults of `RateLimitState`. -/
def initState : RateLimitState :=
  { limit := 0, remaining := 0, reset_time := 0, last_request_time := 0
    requests_this_window := 0, window_start := 0 }

/-- A freshly constructed planner: `__post_init__` stamps `window_start`
of the search and code-search states with the construction time `t0`. -/
def freshPlanner (t0 : ℚ) : SearchPlanner :=
  { search_state := { initState with window_start := t0 }
    code_search_state := { initState with window_start := t0 }
    rest_state := initState
    search_rpm := 28
    code_search_rpm := 8
    min_request_interval := 2.5 }

/-- Python `SearchPlanner._get_state`. -/
def SearchPlanner.getState (p : SearchPlanner) : Endpoint → RateLimitState
  | .search => p.search_state
  | .code_search => p.code_search_state
  | .rest => p.rest_state

/-- Python `SearchPlanner._get_rpm_limit` (REST is hour-limited, returned as 5000). -/
def SearchPlanner.getRpm (p : SearchPlanner) : Endpoint → ℕ
  | .search => p.search_rpm
  | .code_search => p.code_search_rpm
  | .rest => 5000

/-- In-place mutation of the selected state object. -/
def SearchPlanner.setState (p : SearchPlanner) : Endpoint → RateLimitState → SearchPlanner
  | .search, st => { p with search_state := st }
  | .code_search, st => { p with code_search_state := st }
  | .rest, st => { p with rest_state := st }

/-- Python `SearchPlanner.wait_if_needed`.  Branches in decision order: server
quota (sleep `wait_time + 1`), window roll-over (reset counters, then fall
through to the spacing check), self-imposed RPM ceiling (sleep
`60 - window_duration + 1`, reset counters), minimum inter-request
spacing (sleep the remainder), else no wait. -/
def SearchPlanner.wait_if_needed (p : SearchPlanner) (ep : Endpoint)
    (now now2 : ℚ) : ℚ × List ℚ × SearchPlanner :=
  let st := p.getState ep
  let rpm := p.getRpm ep
  let sw := st.should_wait now 3
  if sw.1 then (sw.2 + 1, [sw.2 + 1], p)
  else
    let wd := now - st.window_start
    if 60 ≤ wd then
      let st2 : RateLimitState := { st with requests_this_window := 0, window_start := now }
      let since_last := now - st2.last_request_time
      if since_last < p.min_request_interval then
        (p.min_request_interval - since_last,
          [p.min_request_interval - since_last], p.setState ep st2)
      else (0, [], p.setState ep st2)
    else if rpm ≤ st.requests_this_window then
      let w := 60 - wd + 1
      (w, [w], p.setState ep { st with requests_this_window := 0, window_start := now2 })
    else
      let since_last := now - st.last_request_time
      if since_last < p.min_request_interval then
        (p.min_request_interval - since_last,
          [p.min_request_interval - since_last], p.setState ep st)
      else (0, [], p.setState ep st)

/-! ## Concept extraction (`discover.py` lines 30-31 and 249-266)

The regex pipeline is modelled character by character over the ASCII
fragment the stop list and queries live in: lowercase, replace every
character outside the kept class with a space, split on whitespace runs
(the regex split can yield empty strings only at the boundaries, and
those are removed by the very next `if t` filter, so the splitter below
drops them directly). -/

def STOP : List String :=
  ["a", "an", "and", "are", "as", "at", "be", "by", "for", "from", "has",
   "have", "in", "is", "it", "its", "of", "on", "or", "that", "the", "to",
   "with", "you", "your", "we", "i", "our", "this", "these", "those", "via",
   "into", "over", "under", "using", "use", "used", "new", "fast", "real",
   "il", "lo", "la", "gli", "le", "un", "una", "uno", "che", "di", "a",
   "da", "in", "con", "su", "per", "tra", "fra", "e", "o", "ma", "se",
   "non", "piu", "pi√π", "come"]

/-- A character kept by the punctuation scrub: word characters,
whitespace, hyphen, plus, hash, dot, slash. -/
def keptChar (c : Char) : Bool :=
  c.isAlphanum || c = '_' || c.isWhitespace
    || c = '-' || c = '+' || c = '#' || c = '.' || c = '/'

/-- Apply `text.lower()` then the punctuation scrub. -/
def scrubChars (cs : List Char) : List Char :=
  cs.map (fun c => if keptChar c.toLower then c.toLower else ' ')

/-- Split on whitespace runs, dropping empty pieces. -/
def splitWsAux (cur : List Char) : List Char → List String
  | [] => if cur.isEmpty then [] else [String.mk cur.reverse]
  | c :: cs =>
    if c.isWhitespace then
      if cur.isEmpty then splitWsAux [] cs
      else String.mk cur.reverse :: splitWsAux [] cs
    else splitWsAux (c :: cur) cs

/-- Python `str.isdigit` on the ASCII fragment. -/
def isdigitStr (t : String) : Bool := !t.data.isEmpty && t.data.all Char.isDigit

/-- Python `tokens`: the split pieces that are non-empty, not stop words and not
pure digits. -/
def tokensOf (text : String) : List String :=
  (splitWsAux [] (scrubChars text.data)).filter
    (fun t => !STOP.contains t && !isdigitStr t)

/-- The keys of a Python `Counter`/dict in insertion order: first
occurrences, in order. -/
def firstOccurAux {α : Type} [DecidableEq α] (seen : List α) : List α → List α
  | [] => []
  | x :: xs =>
    if x ∈ seen then firstOccurAux seen xs
    else x :: firstOccurAux (x :: seen) xs

def firstOccur {α : Type} [DecidableEq α] (l : List α) : List α :=
  firstOccurAux [] l

/-- The adjacent-token pairs counted by the bigram loop (pairs containing
a stop word are skipped — dead code here, since `tokensOf` already removed
stop words, but kept for fidelity). -/
def bigramPairs (toks : List String) : List (String × String) :=
  (toks.zip toks.tail).filter
    (fun ab => !STOP.contains ab.1 && !STOP.contains ab.2)

/-- Python `phrases`: bigrams with count at least 2 at weight `1.5 * count`, then
unigrams with count at least 2 at weight `count`, sorted by weight
descending (Python's stable sort). -/
def phrasesOf (toks : List String) : List (String × ℚ) :=
  sortDescBy (fun pw => pw.2)
    (((firstOccur (bigramPairs toks)).filterMap (fun ab =>
        if 2 ≤ (bigramPairs toks).count ab
        then some (ab.1 ++ " " ++ ab.2, ((bigramPairs toks).count ab : ℚ) * 1.5)
        else none))
      ++ ((firstOccur toks).filterMap (fun t =>
        if 2 ≤ toks.count t then some (t, (toks.count t : ℚ)) else none)))

/-- The output loop: take phrases in sorted order until `topk` survive,
skipping duplicates, truncating each to 40 characters. -/
def buildOut (topk : ℕ) : List (String × ℚ) → List String → List String
  | [], out => out
  | pw :: rest, out =>
    if topk ≤ out.length then out
    else if pw.1 ∈ out then buildOut topk rest out
    else buildOut topk rest (out ++ [pw.1.take 40])

def extract_concepts (text : String) (topk : ℕ) : List String :=
  buildOut topk (phrasesOf (tokensOf text)) []

end GitRecombo

namespace GitRecombo

/-! ## Lemmas about aggregation -/

theorem aggStep_other (licenses : List String) (m : String → Option Repo)
    (r : Repo) (k : String) (hk : r.full_name ≠ k) :
    aggStep licenses m r k = m k := by
  unfold aggStep
  split
  · split
    · exact if_neg (fun h => hk h.symm)
    · split
      · exact if_neg (fun h => hk h.symm)
      · rfl
  · rfl

theorem aggStep_same (licenses : List String) (m : String → Option Repo)
    (r : Repo) (k : String) (hk : r.full_name = k)
    (hl : licPasses licenses r = true) :
    aggStep licenses m r k = bestStep (m k) r := by
  subst hk
  unfold aggStep bestStep
  rw [if_pos hl]
  cases hm : m r.full_name with
  | none => simp
  | some prev => simp

theorem aggStep_skip (licenses : List String) (m : String → Option Repo)
    (r : Repo) (k : String) (hl : licPasses licenses r = false) :
    aggStep licenses m r k = m k := by
  unfold aggStep
  rw [hl]
  simp

/-- The value the aggregation map holds at key `k` is the fold of
`bestStep` over the license-passing records with that identity, in stream
order. -/
theorem aggregate_lookup (licenses : List String) (rs : List Repo)
    (k : String) (m : String → Option Repo) :
    (rs.foldl (aggStep licenses) m) k
      = (keyFilter licenses k rs).foldl bestStep (m k) := by
  induction rs generalizing m with
  | nil => rfl
  | cons r rest ih =>
    simp only [List.foldl_cons, keyFilter]
    by_cases hk : r.full_name = k
    · by_cases hl : licPasses licenses r = true
      · rw [if_pos ⟨hk, hl⟩, List.foldl_cons, ih, aggStep_same licenses m r k hk hl]
      · have hl' : licPasses licenses r = false := by simpa using hl
        rw [if_neg (fun h => hl (h.2)), ih, aggStep_skip licenses m r k hl']
    · rw [if_neg (fun h => hk h.1), ih, aggStep_other licenses m r k hk]

/-- C1: aggregation is higher-novelty-wins.  If the license-passing
records of the run that carry identity `k` are exactly two instances with
novelty scores `N1 < N2` — in either interleaving across the queries —
the aggregated candidate map holds exactly the `N2`-scored instance (all
of its fields) at `k`. -/
theorem C1_aggregation_higher_novelty_wins (licenses : List String)
    (rs : List Repo) (k : String) (r1 r2 : Repo)
    (hn : r1.novelty_score < r2.novelty_score)
    (hfilter : keyFilter licenses k rs = [r1, r2] ∨ keyFilter licenses k rs = [r2, r1]) :
    aggregate licenses rs k = some r2 := by
  unfold aggregate
  rw [aggregate_lookup licenses rs k (fun _ => none)]
  rcases hfilter with h | h <;> rw [h]
  · simp only [List.foldl_cons, List.foldl_nil, bestStep]
    rw [if_pos hn]
  · simp only [List.foldl_cons, List.foldl_nil, bestStep]
    rw [if_neg (by exact not_lt_of_gt hn)]

def repoA : Repo :=
  { full_name := "alice/zeta", html_url := "https://example/a", description := "d1"
    language := "Rust", license := some ("MIT"), stargazers_count := 3
    created_at := "2025-01-01", pushed_at := "2025-02-01", fork := false
    forks_count := 0, novelty_score := 1 }

def repoB : Repo :=
  { full_name := "alice/zeta", html_url := "https://example/b", description := "d2"
    language := "Rust", license := some ("MIT"), stargazers_count := 9
    created_at := "2025-01-01", pushed_at := "2025-03-01", fork := false
    forks_count := 1, novelty_score := 3 }

def repoC : Repo :=
  { full_name := "bob/other", html_url := "https://example/c", description := "d3"
    language := "Go", license := some ("Apache-2.0"), stargazers_count := 2
    created_at := "2025-01-01", pushed_at := "2025-01-05", fork := false
    forks_count := 0, novelty_score := 2 }

/-- C1 witness: a concrete three-record stream (the lower-novelty instance
first, a different identity interleaved) aggregates to the higher-novelty
instance. -/
theorem C1_aggregation_witness :
    aggregate ["MIT", "Apache-2.0"] [repoA, repoC, repoB] "alice/zeta" = some repoB :=
  C1_aggregation_higher_novelty_wins ["MIT", "Apache-2.0"] [repoA, repoC, repoB]
    "alice/zeta" repoA repoB (by norm_num [repoA, repoB]) (Or.inl (by decide))

/-! ## Lemmas about the novelty score -/

theorem tanh_nonneg_of_nonneg {x : ℝ} (hx : 0 ≤ x) : 0 ≤ Real.tanh x := by
  rw [Real.tanh_eq_sinh_div_cosh]
  apply div_nonneg _ (Real.cosh_pos x).le
  have h := Real.sinh_le_sinh.mpr hx
  rwa [Real.sinh_zero] at h

theorem tanh_lt_one_of_real (x : ℝ) : Real.tanh x < 1 := by
  rw [Real.tanh_eq_sinh_div_cosh]
  rw [div_lt_one (Real.cosh_pos x)]
  exact Real.sinh_lt_cosh x

/-- The unclamped weighted sum in `novelty_score` lies in `[0, 1)` whenever
`pushed_days` is non-negative (as `days_since` guarantees). -/
theorem novelty_base_bounds (stars forks : ℕ) (created_days pushed_days : ℝ)
    (hpd : 0 ≤ pushed_days) :
    0 ≤ 0.55 * Real.tanh (((stars : ℝ) / max created_days 1e-6) / 50)
        + 0.40 * (1 / (1 + pushed_days))
        + 0.05 * Real.tanh ((forks : ℝ) / 50)
      ∧ 0.55 * Real.tanh (((stars : ℝ) / max created_days 1e-6) / 50)
        + 0.40 * (1 / (1 + pushed_days))
        + 0.05 * Real.tanh ((forks : ℝ) / 50) < 1 := by
  have hden : (0 : ℝ) < max created_days 1e-6 :=
    lt_of_lt_of_le (by norm_num) (le_max_right created_days 1e-6)
  have harg1 : (0 : ℝ) ≤ ((stars : ℝ) / max created_days 1e-6) / 50 :=
    div_nonneg (div_nonneg (Nat.cast_nonneg stars) hden.le) (by norm_num)
  have harg2 : (0 : ℝ) ≤ (forks : ℝ) / 50 :=
    div_nonneg (Nat.cast_nonneg forks) (by norm_num)
  have ht1l : 0 ≤ Real.tanh (((stars : ℝ) / max created_days 1e-6) / 50) :=
    tanh_nonneg_of_nonneg harg1
  have ht1u := tanh_lt_one_of_real (((stars : ℝ) / max created_days 1e-6) / 50)
  have ht2l : 0 ≤ Real.tanh ((forks : ℝ) / 50) := tanh_nonneg_of_nonneg harg2
  have ht2u := tanh_lt_one_of_real ((forks : ℝ) / 50)
  have hfrpos : (0 : ℝ) < 1 + pushed_days := by linarith
  have hfr1 : (0 : ℝ) ≤ 1 / (1 + pushed_days) := by positivity
  have hfr2 : 1 / (1 + pushed_days) ≤ 1 := by
    rw [div_le_one hfrpos]; linarith
  constructor <;> nlinarith

/-- C2: for every valid repository record the novelty score is clamped to
`[0, 1]`, and turning on the `fork` flag of an otherwise identical record
yields exactly the unforked score minus `0.2`, floored at `0`. -/
theorem C2_novelty_bounds_and_fork_penalty (stars forks : ℕ)
    (created_days pushed_days : ℝ) (fork : Bool) (hpd : 0 ≤ pushed_days) :
    (0 ≤ noveltyScore stars forks created_days pushed_days fork
      ∧ noveltyScore stars forks created_days pushed_days fork ≤ 1)
    ∧ noveltyScore stars forks created_days pushed_days true
      = max 0 (noveltyScore stars forks created_days pushed_days false - 0.2) := by
  obtain ⟨hb0, hb1⟩ := novelty_base_bounds stars forks created_days pushed_days hpd
  constructor
  · constructor
    · exact le_max_left 0 _
    · unfold noveltyScore
      exact max_le (by norm_num) (min_le_left 1 _)
  · have htt : (if true = true then (0.2 : ℝ) else 0.0) = 0.2 := rfl
    have hff : (if false = true then (0.2 : ℝ) else 0.0) = 0.0 := rfl
    simp only [noveltyScore, htt, hff, if_true]
    revert hb0 hb1
    generalize 0.55 * Real.tanh (((stars : ℝ) / max created_days 1e-6) / 50)
        + 0.40 * (1 / (1 + pushed_days)) + 0.05 * Real.tanh ((forks : ℝ) / 50) = B
    intro hb0 hb1
    rw [min_eq_right (show B - 0.2 ≤ 1 by linarith),
      min_eq_right (show B - 0.0 ≤ 1 by linarith),
      max_eq_right (show (0 : ℝ) ≤ B - 0.0 by linarith)]
    norm_num

/-- C2 witness: the theorem instantiated at a concrete record
(`stars = forks = 0`, `created_days = 1`, `pushed_days = 0`). -/
theorem C2_novelty_witness :
    (0 : ℝ) ≤ 0
    ∧ ((0 ≤ noveltyScore 0 0 1 0 true ∧ noveltyScore 0 0 1 0 true ≤ 1)
        ∧ noveltyScore 0 0 1 0 true = max 0 (noveltyScore 0 0 1 0 false - 0.2)) :=
  ⟨le_refl 0, C2_novelty_bounds_and_fork_penalty 0 0 1 0 true (le_refl 0)⟩

/-! ## Lemmas about the health score -/

/-- C3: the `require_ci` and `require_tests` hard gates force health to
exactly `0`, regardless of the other indicators; otherwise health is
`0.25` times the number of true indicators. -/
theorem C3_health_hard_gate (require_ci require_tests ci ts rel man : Bool) :
    (require_ci = true → ci = false →
        healthScore require_ci require_tests ci ts rel man = 0)
    ∧ (require_tests = true → ts = false →
        healthScore require_ci require_tests ci ts rel man = 0)
    ∧ ((require_ci = true → ci = true) → (require_tests = true → ts = true) →
        healthScore require_ci require_tests ci ts rel man
          = 0.25 * (indicatorCount ci ts rel man : ℚ)) := by
  cases require_ci <;> cases require_tests <;> cases ci <;> cases ts <;> cases rel
    <;> cases man
    <;> refine ⟨fun h1 h2 => ?_, fun h1 h2 => ?_, fun h1 h2 => ?_⟩
    <;> simp_all [healthScore, indicatorCount]
    <;> norm_num

/-- C3 witness: with `require_ci = true` and CI absent, health is `0` even
though tests, release and manifest are all present; with no gates active,
three true indicators give health `0.75`. -/
theorem C3_health_witness :
    healthScore true false false true true true = 0
    ∧ healthScore false false false true true true = 0.25 * ((3 : ℕ) : ℚ) :=
  ⟨(C3_health_hard_gate true false false true true true).1 rfl rfl,
    (C3_health_hard_gate false false false true true true).2.2
      (by intro h; cases h) (by intro h; cases h)⟩

/-! ## Cosine similarity is bounded by 1 (Cauchy-Schwarz on lists) -/

theorem sumSq_nonneg (l : List ℝ) : 0 ≤ (l.map (fun x => x * x)).sum := by
  apply List.sum_nonneg
  intro x hx
  obtain ⟨y, _, rfl⟩ := List.mem_map.mp hx
  exact mul_self_nonneg y

theorem zip_sum_sq_le (a b : List ℝ) :
    ((List.zipWith (fun x y => x * y) a b).sum) ^ 2
      ≤ (a.map (fun x => x * x)).sum * (b.map (fun x => x * x)).sum := by
  induction a generalizing b with
  | nil => simp
  | cons x xs ih =>
    cases b with
    | nil => simp
    | cons y ys =>
      have hcs := ih ys
      have hA := sumSq_nonneg xs
      have hB := sumSq_nonneg ys
      simp only [List.zipWith_cons_cons, List.map_cons, List.sum_cons]
      revert hcs hA hB
      generalize (List.zipWith (fun x y => x * y) xs ys).sum = d
      generalize (xs.map (fun x => x * x)).sum = A
      generalize (ys.map (fun x => x * x)).sum = B
      intro hcs hA hB
      rcases eq_or_lt_of_le hA with hA0 | hApos
      · have hd2 : d ^ 2 ≤ 0 := by rw [← hA0] at hcs; simpa using hcs
        have hd : d = 0 := by
          have h0 : d ^ 2 = 0 := le_antisymm hd2 (sq_nonneg d)
          exact pow_eq_zero_iff two_ne_zero |>.mp h0
        subst hd
        rw [← hA0]
        nlinarith [sq_nonneg x, sq_nonneg y, mul_nonneg (mul_self_nonneg x) hB]
      · nlinarith [hcs, hApos, hB, sq_nonneg (A * y - d * x),
          mul_nonneg (mul_self_nonneg x) (by nlinarith : (0 : ℝ) ≤ A * B - d ^ 2),
          mul_nonneg hApos.le (by nlinarith : (0 : ℝ) ≤ A * B - d ^ 2)]

theorem cosine_le_one (a b : List ℝ) : cosine a b ≤ 1 := by
  unfold cosine
  split
  · norm_num
  · split
    · norm_num
    · rename_i hguard hnz
      push_neg at hnz
      obtain ⟨hna, hnb⟩ := hnz
      have hsa : 0 ≤ Real.sqrt ((a.map (fun x => x * x)).sum) := Real.sqrt_nonneg _
      have hsb : 0 ≤ Real.sqrt ((b.map (fun x => x * x)).sum) := Real.sqrt_nonneg _
      have hpa : 0 < Real.sqrt ((a.map (fun x => x * x)).sum) :=
        lt_of_le_of_ne hsa (Ne.symm hna)
      have hpb : 0 < Real.sqrt ((b.map (fun x => x * x)).sum) :=
        lt_of_le_of_ne hsb (Ne.symm hnb)
      rw [div_le_one (mul_pos hpa hpb)]
      have h1 : (List.zipWith (fun x y => x * y) a b).sum
          ≤ |(List.zipWith (fun x y => x * y) a b).sum| := le_abs_self _
      have h2 : |(List.zipWith (fun x y => x * y) a b).sum|
          = Real.sqrt (((List.zipWith (fun x y => x * y) a b).sum) ^ 2) :=
        (Real.sqrt_sq_eq_abs _).symm
      have h3 : Real.sqrt (((List.zipWith (fun x y => x * y) a b).sum) ^ 2)
          ≤ Real.sqrt ((a.map (fun x => x * x)).sum * (b.map (fun x => x * x)).sum) :=
        Real.sqrt_le_sqrt (zip_sum_sq_le a b)
      have h4 : Real.sqrt ((a.map (fun x => x * x)).sum * (b.map (fun x => x * x)).sum)
          = Real.sqrt ((a.map (fun x => x * x)).sum)
            * Real.sqrt ((b.map (fun x => x * x)).sum) :=
        Real.sqrt_mul (sumSq_nonneg a) _
      linarith [h1, h2 ▸ h1, h3, h4 ▸ h3]

/-! ## The diversity bonus (C5) -/

/-- C5 (amended): during greedy selection, with `selected_vecs` the
embeddings of the already-selected candidates, the diversity bonus is
`1 - mean(cosine)` when the candidate has an embedding and at least one
prior selection has one (in particular the `max(0, ·)` in the code never
clips, because cosine similarity is at most 1); it is `1.0` when nothing
has been selected yet; and it is `0.0` for a candidate with no embedding
once at least one prior selection has an embedding (not merely once
anything has been selected: if no prior selection carried an embedding the
code yields `1.0`, see the counterexample). -/
theorem C5_diversity_bonus (vecs : String → Option (List ℝ))
    (selected : List Cand) (c : Cand) :
    (∀ v, vecs c.full_name = some v → selVecsOf vecs selected ≠ [] →
      divBonus vecs (selVecsOf vecs selected) c
        = 1 - (((selVecsOf vecs selected).map (fun u => cosine v u)).sum
                / (((selVecsOf vecs selected).map (fun u => cosine v u)).length : ℝ)))
    ∧ (selected = [] → divBonus vecs (selVecsOf vecs selected) c = 1)
    ∧ (vecs c.full_name = none → selVecsOf vecs selected ≠ [] →
        divBonus vecs (selVecsOf vecs selected) c = 0) := by
  refine ⟨?_, ?_, ?_⟩
  · intro v hv hne
    cases hsel : selVecsOf vecs selected with
    | nil => exact absurd hsel hne
    | cons w ws =>
      unfold divBonus
      rw [hv]
      have hlen : (0 : ℝ) < (((w :: ws).map (fun u => cosine v u)).length : ℝ) := by
        simp
        positivity
      have hsum : (((w :: ws).map (fun u => cosine v u)).sum)
          ≤ (((w :: ws).map (fun u => cosine v u)).length : ℝ) := by
        have h := List.sum_le_card_nsmul ((w :: ws).map (fun u => cosine v u)) 1 ?_
        · simpa using h
        · intro x hx
          obtain ⟨u, _, rfl⟩ := List.mem_map.mp hx
          exact cosine_le_one v u
      have havg : ((w :: ws).map (fun u => cosine v u)).sum
            / (((w :: ws).map (fun u => cosine v u)).length : ℝ) ≤ 1 := by
        rw [div_le_one hlen]
        exact hsum
      exact max_eq_right (by linarith)
  · intro hsel
    subst hsel
    unfold divBonus
    cases vecs c.full_name <;> rfl
  · intro hv hne
    cases hsel : selVecsOf vecs selected with
    | nil => exact absurd hsel hne
    | cons w ws =>
      unfold divBonus
      rw [hv]

/-! ## Lemmas about the greedy selector -/

theorem divBonus_nonneg (vecs : String → Option (List ℝ))
    (selVecs : List (List ℝ)) (c : Cand) : 0 ≤ divBonus vecs selVecs c := by
  unfold divBonus
  cases vecs c.full_name <;> cases selVecs <;> simp [le_max_left]

theorem scoreItem_nonneg (w : Weights) (c : Cand) (d : ℝ)
    (hw : 0 ≤ w.novelty ∧ 0 ≤ w.health ∧ 0 ≤ w.relevance ∧ 0 ≤ w.author ∧ 0 ≤ w.diversity)
    (hc : 0 ≤ c.novelty_score ∧ 0 ≤ c.health_score ∧ 0 ≤ c.relevance ∧ 0 ≤ c.author_rep)
    (hd : 0 ≤ d) : 0 ≤ scoreItem w c d := by
  obtain ⟨h1, h2, h3, h4, h5⟩ := hw
  obtain ⟨g1, g2, g3, g4⟩ := hc
  unfold scoreItem
  have := mul_nonneg h1 g1
  have := mul_nonneg h2 g2
  have := mul_nonneg h3 g3
  have := mul_nonneg h4 g4
  have := mul_nonneg h5 hd
  linarith

theorem extractBest_length (score : Cand → ℝ) (pool : List Cand) :
    ∀ (bestS : ℝ) (b : Cand) (rest : List Cand),
      extractBest score pool bestS = some (b, rest) → rest.length + 1 = pool.length := by
  induction pool with
  | nil => intro bestS b rest h; simp [extractBest] at h
  | cons c tail ih =>
    intro bestS b rest h
    unfold extractBest at h
    split at h
    · cases hrec : extractBest score tail (score c) with
      | none =>
        rw [hrec] at h
        simp only [] at h
        obtain ⟨hb, hrest⟩ := Prod.mk.injEq .. ▸ (Option.some.injEq .. ▸ h)
        subst hrest
        simp
      | some p =>
        rw [hrec] at h
        obtain ⟨b0, rest0⟩ := p
        simp only [Option.some.injEq, Prod.mk.injEq] at h
        obtain ⟨hb, hrest⟩ := h
        subst hrest
        have := ih (score c) b0 rest0 hrec
        simp [← this]
    · cases hrec : extractBest score tail bestS with
      | none => rw [hrec] at h; simp at h
      | some p =>
        rw [hrec] at h
        obtain ⟨b0, rest0⟩ := p
        simp only [Option.some.injEq, Prod.mk.injEq] at h
        obtain ⟨hb, hrest⟩ := h
        subst hrest
        have := ih bestS b0 rest0 hrec
        simp [← this]

theorem extractBest_mem (score : Cand → ℝ) (pool : List Cand) :
    ∀ (bestS : ℝ) (b : Cand) (rest : List Cand),
      extractBest score pool bestS = some (b, rest) →
      b ∈ pool ∧ ∀ x ∈ rest, x ∈ pool := by
  induction pool with
  | nil => intro bestS b rest h; simp [extractBest] at h
  | cons c tail ih =>
    intro bestS b rest h
    unfold extractBest at h
    split at h
    · cases hrec : extractBest score tail (score c) with
      | none =>
        rw [hrec] at h
        simp only [Option.some.injEq, Prod.mk.injEq] at h
        obtain ⟨hb, hrest⟩ := h
        subst hb; subst hrest
        exact ⟨List.mem_cons_self c tail, fun x hx => List.mem_cons_of_mem c hx⟩
      | some p =>
        rw [hrec] at h
        obtain ⟨b0, rest0⟩ := p
        simp only [Option.some.injEq, Prod.mk.injEq] at h
        obtain ⟨hb, hrest⟩ := h
        subst hb; subst hrest
        obtain ⟨hmem, hsub⟩ := ih (score c) b0 rest0 hrec
        refine ⟨List.mem_cons_of_mem c hmem, ?_⟩
        intro x hx
        rcases List.mem_cons.mp hx with hx | hx
        · exact hx ▸ List.mem_cons_self c tail
        · exact List.mem_cons_of_mem c (hsub x hx)
    · cases hrec : extractBest score tail bestS with
      | none => rw [hrec] at h; simp at h
      | some p =>
        rw [hrec] at h
        obtain ⟨b0, rest0⟩ := p
        simp only [Option.some.injEq, Prod.mk.injEq] at h
        obtain ⟨hb, hrest⟩ := h
        subst hb; subst hrest
        obtain ⟨hmem, hsub⟩ := ih bestS b0 rest0 hrec
        refine ⟨List.mem_cons_of_mem c hmem, ?_⟩
        intro x hx
        rcases List.mem_cons.mp hx with hx | hx
        · exact hx ▸ List.mem_cons_self c tail
        · exact List.mem_cons_of_mem c (hsub x hx)

theorem extractBest_progress (score : Cand → ℝ) (c : Cand) (tail : List Cand)
    (bestS : ℝ) (h : bestS < score c) :
    ∃ b rest, extractBest score (c :: tail) bestS = some (b, rest) := by
  unfold extractBest
  rw [if_pos h]
  cases hrec : extractBest score tail (score c) with
  | none => exact ⟨c, tail, rfl⟩
  | some p =>
    obtain ⟨b0, rest0⟩ := p
    exact ⟨b0, c :: rest0, rfl⟩

theorem extractBest_none (score : Cand → ℝ) (pool : List Cand) :
    ∀ (bestS : ℝ), (∀ c ∈ pool, ¬ bestS < score c) →
      extractBest score pool bestS = none := by
  induction pool with
  | nil => intro bestS _; rfl
  | cons c tail ih =>
    intro bestS h
    unfold extractBest
    rw [if_neg (h c (List.mem_cons_self c tail))]
    rw [ih bestS (fun x hx => h x (List.mem_cons_of_mem c hx))]

theorem greedyLoop_length_le (w : Weights) (vecs : String → Option (List ℝ)) :
    ∀ (fuel : ℕ) (pool selected : List Cand) (selVecs : List (List ℝ)),
      (greedyLoop w vecs fuel pool selected selVecs).length
        ≤ selected.length + pool.length := by
  intro fuel
  induction fuel with
  | zero => intro pool selected selVecs; simp [greedyLoop]
  | succ n ih =>
    intro pool selected selVecs
    cases pool with
    | nil => simp [greedyLoop]
    | cons c tail =>
      simp only [greedyLoop]
      split
      · cases hbest : extractBest
            (fun cand => scoreItem w cand (divBonus vecs selVecs cand)) (c :: tail) (-1) with
        | none => simp
        | some p =>
          obtain ⟨b, rest⟩ := p
          have hlen := extractBest_length _ (c :: tail) _ b rest hbest
          have := ih rest (selected ++ [b]) (selVecs ++ (vecs b.full_name).toList)
          simp only [List.length_append, List.length_singleton] at this
          simp only [List.length_cons] at hlen ⊢
          omega
      · simp

theorem greedyLoop_length_six (w : Weights) (vecs : String → Option (List ℝ)) :
    ∀ (fuel : ℕ) (pool selected : List Cand) (selVecs : List (List ℝ)),
      pool.length ≤ fuel → selected.length ≤ 6 →
      6 ≤ selected.length + pool.length →
      (∀ c ∈ pool, ∀ sv : List (List ℝ), -1 < scoreItem w c (divBonus vecs sv c)) →
      (greedyLoop w vecs fuel pool selected selVecs).length = 6 := by
  intro fuel
  induction fuel with
  | zero =>
    intro pool selected selVecs hf hs hsum _
    have hnil : pool = [] := List.length_eq_zero.mp (Nat.le_zero.mp hf)
    subst hnil
    simp only [greedyLoop]
    simp at hsum
    omega
  | succ n ih =>
    intro pool selected selVecs hf hs hsum H
    cases pool with
    | nil =>
      simp only [greedyLoop]
      simp at hsum
      omega
    | cons c tail =>
      simp only [greedyLoop]
      by_cases hlt : selected.length < 6
      · rw [if_pos hlt]
        have hscore : -1 < scoreItem w c (divBonus vecs selVecs c) :=
          H c (List.mem_cons_self c tail) selVecs
        obtain ⟨b, rest, hbr⟩ := extractBest_progress
          (fun cand => scoreItem w cand (divBonus vecs selVecs cand)) c tail (-1) hscore
        rw [hbr]
        have hrl := extractBest_length _ (c :: tail) _ b rest hbr
        have hmem := extractBest_mem _ (c :: tail) _ b rest hbr
        simp only [List.length_cons] at hrl hf hsum
        apply ih rest (selected ++ [b]) (selVecs ++ (vecs b.full_name).toList)
        · omega
        · simp only [List.length_append, List.length_singleton]
          omega
        · simp only [List.length_append, List.length_singleton]
          omega
        · exact fun x hx sv => H x (hmem.2 x hx) sv
      · rw [if_neg hlt]
        omega

theorem insertDescBy_length {α β : Type} [LinearOrder β] (key : α → β) (a : α)
    (l : List α) : (insertDescBy key a l).length = l.length + 1 := by
  induction l with
  | nil => rfl
  | cons x xs ih =>
    unfold insertDescBy
    split
    · simp [ih]
    · simp

theorem sortDescBy_foldl_length {α β : Type} [LinearOrder β] (key : α → β) :
    ∀ (l acc : List α),
      (l.foldl (fun acc a => insertDescBy key a acc) acc).length
        = acc.length + l.length := by
  intro l
  induction l with
  | nil => intro acc; simp
  | cons x xs ih =>
    intro acc
    simp only [List.foldl_cons]
    rw [ih (insertDescBy key x acc), insertDescBy_length]
    simp only [List.length_cons]
    omega

theorem sortDescBy_length {α β : Type} [LinearOrder β] (key : α → β) (l : List α) :
    (sortDescBy key l).length = l.length := by
  unfold sortDescBy
  rw [sortDescBy_foldl_length]
  simp

/-- A single loop iteration that finds no candidate beating the `-1` seed
returns `selected` unchanged (`if not best: break`). -/
theorem greedyLoop_stuck (w : Weights) (vecs : String → Option (List ℝ))
    (fuel : ℕ) (c : Cand) (pool selected : List Cand) (selVecs : List (List ℝ))
    (hlt : selected.length < 6)
    (hnone : extractBest (fun cand => scoreItem w cand (divBonus vecs selVecs cand))
        (c :: pool) (-1) = none) :
    greedyLoop w vecs (fuel + 1) (c :: pool) selected selVecs = selected := by
  simp only [greedyLoop]
  rw [if_pos hlt, hnone]

/-- C4 (amended): with non-negative weights and non-negative candidate
signal fields, if at least 6 candidates survive the health filter the
Selector returns exactly 6; and whenever exactly 2 candidates survive the
filter (with at least 3 in the full probed set) the result is exactly the
top-3 of the full probed set by novelty descending — the greedy result is
discarded and the health filter bypassed.  (Without the field
non-negativity assumption the first part fails, see the counterexample:
a relevance of `-1` can drive every score down to the `-1` argmax
sentinel, so the loop picks nothing.) -/
theorem C4_selector_cardinality (w : Weights) (vecs : String → Option (List ℝ))
    (probe : List Cand) :
    ((0 ≤ w.novelty ∧ 0 ≤ w.health ∧ 0 ≤ w.relevance ∧ 0 ≤ w.author ∧ 0 ≤ w.diversity) →
      (∀ c ∈ probe, 0 ≤ c.novelty_score ∧ 0 ≤ c.health_score ∧ 0 ≤ c.relevance
        ∧ 0 ≤ c.author_rep) →
      6 ≤ (probe.filter (fun c => !c.drop)).length →
      (select w vecs probe).length = 6)
    ∧ ((probe.filter (fun c => !c.drop)).length = 2 → 3 ≤ probe.length →
      select w vecs probe = (sortDescBy (fun c => c.novelty_score) probe).take 3
        ∧ (select w vecs probe).length = 3) := by
  constructor
  · intro hw hpos hcount
    have H : ∀ c ∈ probe.filter (fun c => !c.drop), ∀ sv : List (List ℝ),
        -1 < scoreItem w c (divBonus vecs sv c) := by
      intro c hc sv
      have hmem : c ∈ probe := List.mem_of_mem_filter hc
      have h0 : 0 ≤ scoreItem w c (divBonus vecs sv c) :=
        scoreItem_nonneg w c _ hw (hpos c hmem) (divBonus_nonneg vecs sv c)
      linarith
    have hlen := greedyLoop_length_six w vecs (probe.filter (fun c => !c.drop)).length
      (probe.filter (fun c => !c.drop)) [] [] (le_refl _) (by simp)
      (by simpa using hcount) H
    simp only [select]
    rw [hlen, if_neg (by norm_num)]
    exact hlen
  · intro h2 h3
    have hle := greedyLoop_length_le w vecs (probe.filter (fun c => !c.drop)).length
      (probe.filter (fun c => !c.drop)) [] []
    have hlt : (greedyLoop w vecs (probe.filter (fun c => !c.drop)).length
        (probe.filter (fun c => !c.drop)) [] []).length < 3 := by
      simp only [List.length_nil, Nat.zero_add] at hle
      omega
    constructor
    · simp only [select]
      rw [if_pos hlt]
    · simp only [select]
      rw [if_pos hlt, List.length_take, sortDescBy_length]
      omega

/-- C4 counterexample: the claim as stated (quantifying over every
non-negative weight vector and every probed pool) is false.  Six
candidates survive the health filter, the weights `(0, 0, 1, 0, 0)` are
non-negative, yet every candidate scores `0*0 + 0*0 + 1*(-1) + 0*0 + 0*1
= -1`, which does not strictly beat the `-1` argmax seed, so the greedy
loop selects nothing and the fallback returns 3 candidates, not 6. -/
theorem C4_selector_counterexample :
    (0 ≤ cexW.novelty ∧ 0 ≤ cexW.health ∧ 0 ≤ cexW.relevance ∧ 0 ≤ cexW.author
      ∧ 0 ≤ cexW.diversity)
    ∧ (cexProbe.filter (fun c => !c.drop)).length = 6
    ∧ (select cexW noVecs cexProbe).length = 3
    ∧ ¬ (select cexW noVecs cexProbe).length = 6 := by
  have hpool : cexProbe.filter (fun c => !c.drop) = cexProbe := rfl
  have hnone : extractBest
      (fun cand => scoreItem cexW cand (divBonus noVecs [] cand)) cexProbe (-1) = none := by
    apply extractBest_none
    intro c hc
    have hcc : c = cexC := List.eq_of_mem_replicate hc
    subst hcc
    show ¬ (-1 : ℝ) < scoreItem cexW cexC (divBonus noVecs [] cexC)
    rw [show divBonus noVecs [] cexC = 1 from rfl]
    norm_num [scoreItem, cexW, cexC]
  have hgreedy : greedyLoop cexW noVecs cexProbe.length cexProbe [] [] = [] := by
    rw [show cexProbe.length = 5 + 1 from rfl,
      show cexProbe = cexC :: List.replicate 5 cexC from rfl]
    exact greedyLoop_stuck cexW noVecs 5 cexC (List.replicate 5 cexC) [] []
      (by norm_num)
      (by rw [show (cexC :: List.replicate 5 cexC : List Cand) = cexProbe from rfl]
          exact hnone)
  have hsel : select cexW noVecs cexProbe
      = (sortDescBy (fun c => c.novelty_score) cexProbe).take 3 := by
    simp only [select]
    rw [hpool, hgreedy, if_pos (by norm_num)]
  have hlen : (select cexW noVecs cexProbe).length = 3 := by
    rw [hsel, List.length_take, sortDescBy_length]
    rfl
  exact ⟨by norm_num [cexW], rfl, hlen, by rw [hlen]; norm_num⟩

/-- C4 witness: the amended theorem instantiated twice — a pool of six
surviving all-zero candidates returns exactly 6, and a probed set of three
candidates of which exactly 2 survive returns the top-3-by-novelty of the
full probed set. -/
theorem C4_selector_witness :
    (select wZero noVecs probeA).length = 6
    ∧ (select wZero noVecs probeB
        = (sortDescBy (fun c => c.novelty_score) probeB).take 3
      ∧ (select wZero noVecs probeB).length = 3) := by
  constructor
  · apply (C4_selector_cardinality wZero noVecs probeA).1
    · norm_num [wZero]
    · intro c hc
      have hcc : c = candA := List.eq_of_mem_replicate hc
      subst hcc
      norm_num [candA]
    · have h6 : (probeA.filter (fun c => !c.drop)).length = 6 := rfl
      omega
  · apply (C4_selector_cardinality wZero noVecs probeB).2
    · rfl
    · have h3 : probeB.length = 3 := rfl
      omega

/-- C5 counterexample: the original claim's third clause is false.  After
one candidate with no embedding has been selected, `selected_vecs` is
still empty, so a further candidate with no embedding receives diversity
bonus `1.0`, not the claimed `0.0`. -/
theorem C5_diversity_counterexample :
    ([candNoEmb] : List Cand) ≠ []
    ∧ vecsC5 candNoEmb.full_name = none
    ∧ divBonus vecsC5 (selVecsOf vecsC5 [candNoEmb]) candNoEmb = 1
    ∧ (1 : ℝ) ≠ 0 :=
  ⟨by simp, rfl, rfl, one_ne_zero⟩

/-- C5 witness: the amended theorem instantiated at a one-element selection
that carries an embedding. -/
theorem C5_diversity_witness :
    vecsC5 candEmb.full_name = some [1]
    ∧ divBonus vecsC5 (selVecsOf vecsC5 [candEmb]) candEmb
      = 1 - (((selVecsOf vecsC5 [candEmb]).map (fun u => cosine [1] u)).sum
              / (((selVecsOf vecsC5 [candEmb]).map (fun u => cosine [1] u)).length : ℝ)) := by
  refine ⟨rfl, ?_⟩
  exact (C5_diversity_bonus vecsC5 [candEmb] candEmb).1 [1] rfl
    (by simp [selVecsOf, vecsC5, candEmb])

/-! ## TTL cache reads (C6) -/

/-- C6: a README cached at time `T` with `ttl_hours = H` is returned by a
TTL-checked read strictly before `T + H*3600`, reads as "not found"
strictly after `T + H*3600`, and the staleness test is exactly
`now - cached_at > ttl_hours * 3600`. -/
theorem C6_ttl_expiry (tbl : List (String × ReadmeRow))
    (name content : String) (T H now : ℚ) :
    (now < T + H * 3600 →
      get_readme (cache_readme tbl name content T H) name now true = some content)
    ∧ (T + H * 3600 < now →
      get_readme (cache_readme tbl name content T H) name now true = none)
    ∧ (get_readme (cache_readme tbl name content T H) name now true = none
        ↔ H * 3600 < now - T) := by
  have hrow : readmeRow (cache_readme tbl name content T H) name
      = some ⟨content, T, H⟩ := by
    unfold readmeRow cache_readme
    simp
  have hred : get_readme (cache_readme tbl name content T H) name now true
      = if (true = true) ∧ H * 3600 < now - T then none else some content := by
    unfold get_readme
    rw [hrow]
  refine ⟨?_, ?_, ?_⟩
  · intro h
    rw [hred, if_neg]
    rintro ⟨-, hc⟩
    linarith
  · intro h
    rw [hred, if_pos ⟨rfl, by linarith⟩]
  · rw [hred]
    constructor
    · intro h
      by_contra hlt
      rw [if_neg (fun hc => hlt hc.2)] at h
      exact Option.some_ne_none content h
    · intro h
      rw [if_pos ⟨rfl, h⟩]

/-- C6 witness: the theorem instantiated at a concrete entry (written at
`T = 0` with `H = 1` hour): readable at `now = 100`, expired at
`now = 4000`. -/
theorem C6_ttl_witness :
    get_readme (cache_readme [] "o/r" "docs" 0 1) "o/r" 100 true = some ("docs")
    ∧ get_readme (cache_readme [] "o/r" "docs" 0 1) "o/r" 4000 true = none :=
  ⟨(C6_ttl_expiry [] "o/r" "docs" 0 1 100).1 (by norm_num),
    (C6_ttl_expiry [] "o/r" "docs" 0 1 4000).2.1 (by norm_num)⟩

/-! ## API client retry behavior (C7) -/

/-- If every attempt from `retry - m` on receives a rate-limited 403, the
loop sleeps `max(reset - now, 60) + 2` before each retry and ends in the
rate-limit-exhausted error. -/
theorem ghGetLoop_all_rl (resp : ℕ → Resp) (now : ℕ → ℚ) (retry : ℕ) :
    ∀ (m : ℕ) (sleeps : List ℚ), 1 ≤ m → m ≤ retry →
      (∀ i, retry - m ≤ i → i < retry → is403RL (resp i) = true) →
      ghGetLoop resp now retry m sleeps
        = (.rateLimited,
            sleeps ++ (List.range' (retry - m) (m - 1)).map
              (fun i => max ((resp i).reset_time - now i) 60 + 2)) := by
  intro m
  induction m with
  | zero => intro sleeps h1 _ _; exact absurd h1 (by norm_num)
  | succ k ih =>
    intro sleeps _ hm hall
    have hrl : is403RL (resp (retry - (k + 1))) = true :=
      hall _ (le_refl _) (by omega)
    simp only [ghGetLoop, hrl, if_true]
    by_cases hk : 0 < k
    · rw [if_pos hk]
      rw [ih _ (by omega) (by omega) (fun i h1 h2 => hall i (by omega) h2)]
      have hrange : List.range' (retry - (k + 1)) (k + 1 - 1)
          = (retry - (k + 1)) :: List.range' (retry - k) (k - 1) := by
        have h1 : k + 1 - 1 = (k - 1) + 1 := by omega
        have h2 : retry - (k + 1) + 1 = retry - k := by omega
        rw [h1, List.range'_succ, h2]
      rw [hrange]
      simp
    · rw [if_neg hk]
      have hk0 : k = 0 := by omega
      subst hk0
      simp

/-- The outcome of the loop does not depend on the sleep accumulator. -/
theorem ghGetLoop_sleeps_indep (resp : ℕ → Resp) (now : ℕ → ℚ) (retry : ℕ) :
    ∀ (m : ℕ) (s1 s2 : List ℚ),
      (ghGetLoop resp now retry m s1).1 = (ghGetLoop resp now retry m s2).1 := by
  intro m
  induction m with
  | zero => intro s1 s2; rfl
  | succ k ih =>
    intro s1 s2
    simp only [ghGetLoop]
    by_cases hrl : is403RL (resp (retry - (k + 1))) = true
    · rw [hrl]
      simp only [if_true]
      by_cases hk : 0 < k
      · rw [if_pos hk, if_pos hk]
        exact ih _ _
      · rw [if_neg hk, if_neg hk]
    · rw [Bool.not_eq_true] at hrl
      rw [hrl]
      simp only [Bool.false_eq_true, if_false]
      split <;> split <;> rfl

/-- Traversing a prefix of rate-limited 403s brings the loop to the first
non-rate-limited attempt with the same outcome. -/
theorem ghGetLoop_skip_rl (resp : ℕ → Resp) (now : ℕ → ℚ) (retry k : ℕ)
    (hk : k < retry) :
    ∀ (m : ℕ) (sleeps : List ℚ), retry - m ≤ k → m ≤ retry →
      (∀ i, retry - m ≤ i → i < k → is403RL (resp i) = true) →
      (ghGetLoop resp now retry m sleeps).1
        = (ghGetLoop resp now retry (retry - k) []).1 := by
  intro m
  induction m with
  | zero => intro sleeps h1 _ _; omega
  | succ j ih =>
    intro sleeps hle hm hall
    by_cases heq : retry - (j + 1) = k
    · have hjk : j + 1 = retry - k := by omega
      rw [hjk]
      exact ghGetLoop_sleeps_indep resp now retry (retry - k) sleeps []
    · have hx : retry - (j + 1) < k := by omega
      have hrl := hall _ (le_refl _) hx
      simp only [ghGetLoop, hrl, if_true]
      have hj : 0 < j := by omega
      rw [if_pos hj]
      exact ih _ (by omega) (by omega) (fun i h1 h2 => hall i (by omega) h2)

/-- One non-rate-limited attempt resolves immediately: `raise_for_status`
for any status `>= 400`, otherwise the parsed body. -/
theorem ghGetLoop_step_result (resp : ℕ → Resp) (now : ℕ → ℚ) (retry k : ℕ)
    (hk : k < retry) (hnot : is403RL (resp k) = false) :
    (400 ≤ (resp k).status →
      (ghGetLoop resp now retry (retry - k) []).1 = .httpError (resp k).status)
    ∧ ((resp k).status < 400 →
      (ghGetLoop resp now retry (retry - k) []).1 = .ok (resp k).body) := by
  have hm : retry - k = (retry - k - 1) + 1 := by omega
  rw [hm]
  have hatt : retry - ((retry - k - 1) + 1) = k := by omega
  simp only [ghGetLoop, hatt, hnot]
  simp only [Bool.false_eq_true, if_false]
  constructor
  · intro h
    rw [if_pos h]
  · intro h
    rw [if_neg (by omega)]

/-- C7 (amended): for every request issued through `gh_get` with retry
budget `R`: a rate-limited 403 sleeps `max(reset_time - now, 60) + 2` and
retries, and the rate-limit-exhausted error is raised only after all `R`
attempts receive such a 403; any other response with status `>= 400`
(after any preceding rate-limited 403s) fails immediately on that attempt
surfacing its HTTP status; and any other response with status `< 400` —
in particular every 2xx — returns the parsed body.  (The original claim
said every non-2xx fails immediately, but `raise_for_status` raises only
for status `>= 400`, so a 1xx/3xx response returns its body instead —
see the counterexample.) -/
theorem C7_api_client_retry (resp : ℕ → Resp) (now : ℕ → ℚ) (retry k : ℕ) :
    (1 ≤ retry → (∀ i, i < retry → is403RL (resp i) = true) →
      ghGet resp now retry
        = (.rateLimited, (List.range (retry - 1)).map
            (fun i => max ((resp i).reset_time - now i) 60 + 2)))
    ∧ ((∀ i, i < k → is403RL (resp i) = true) → k < retry →
        is403RL (resp k) = false → 400 ≤ (resp k).status →
        (ghGet resp now retry).1 = .httpError (resp k).status)
    ∧ ((∀ i, i < k → is403RL (resp i) = true) → k < retry →
        is403RL (resp k) = false →
        (resp k).status < 400 →
        (ghGet resp now retry).1 = .ok (resp k).body) := by
  refine ⟨?_, ?_, ?_⟩
  · intro hr hall
    unfold ghGet
    rw [ghGetLoop_all_rl resp now retry retry [] hr (le_refl retry)
      (fun i h1 h2 => hall i h2)]
    rw [show retry - retry = 0 from by omega, ← List.range_eq_range']
    simp
  · intro hall hk hnot hst
    unfold ghGet
    rw [ghGetLoop_skip_rl resp now retry k hk retry [] (by omega) (le_refl retry)
      (fun i _ h2 => hall i h2)]
    exact (ghGetLoop_step_result resp now retry k hk hnot).1 hst
  · intro hall hk hnot hst
    unfold ghGet
    rw [ghGetLoop_skip_rl resp now retry k hk retry [] (by omega) (le_refl retry)
      (fun i _ h2 => hall i h2)]
    exact (ghGetLoop_step_result resp now retry k hk hnot).2 hst

/-- C7 counterexample: the original claim is false for non-2xx statuses
below 400.  A 304 Not Modified response (non-2xx, not a rate-limited 403)
does not fail surfacing its status: `raise_for_status` raises only for
status `>= 400`, so the client returns the parsed body. -/
theorem C7_api_client_counterexample :
    (respNotMod 0).status = 304
    ∧ ¬ (200 ≤ (respNotMod 0).status ∧ (respNotMod 0).status < 300)
    ∧ is403RL (respNotMod 0) = false
    ∧ (ghGet respNotMod nowZ 3).1 = GhOutcome.ok ((respNotMod 0).body)
    ∧ ∀ s, (ghGet respNotMod nowZ 3).1 ≠ GhOutcome.httpError s := by
  refine ⟨rfl, by norm_num [respNotMod], rfl, rfl, ?_⟩
  intro s h
  rw [show (ghGet respNotMod nowZ 3).1 = GhOutcome.ok ((respNotMod 0).body) from rfl] at h
  cases h

/-- C7 witness: the amended theorem instantiated at three concrete
schedules with `retry = 3` — all attempts rate-limited (two sleeps, then
the exhausted error), a rate-limited 403 followed by a 500 (immediate
HTTP error), and an immediate 200 (parsed body). -/
theorem C7_api_client_witness :
    ghGet respRL nowZ 3
      = (.rateLimited, (List.range 2).map
          (fun i => max ((respRL i).reset_time - nowZ i) 60 + 2))
    ∧ (ghGet respErr nowZ 3).1 = .httpError (respErr 1).status
    ∧ (ghGet respOk nowZ 3).1 = .ok (respOk 0).body := by
  refine ⟨?_, ?_, ?_⟩
  · exact (C7_api_client_retry respRL nowZ 3 0).1 (by norm_num)
      (fun i _ => rfl)
  · exact (C7_api_client_retry respErr nowZ 3 1).2.1
      (by intro i hi
          interval_cases i
          rfl)
      (by norm_num) rfl (by norm_num [respErr])
  · exact (C7_api_client_retry respOk nowZ 3 0).2.2
      (by intro i hi; omega) (by norm_num) rfl (by norm_num [respOk])

/-! ## Rate limiter safety (C8) and first-call behavior (C10) -/

theorem should_wait_snd_nonneg (st : RateLimitState) (now : ℚ) (m : ℤ) :
    0 ≤ (st.should_wait now m).2 := by
  unfold RateLimitState.should_wait
  split
  · exact le_max_left 0 _
  · exact le_refl 0

/-- C8: `wait_if_needed` never raises — on every state (reachable or not)
and every endpoint class, every duration it passes to `time.sleep` is
non-negative (so `sleep` cannot raise), and the returned seconds-waited
value is non-negative. -/
theorem C8_wait_if_needed_total (p : SearchPlanner) (ep : Endpoint) (now now2 : ℚ) :
    0 ≤ (p.wait_if_needed ep now now2).1
    ∧ ((p.wait_if_needed ep now now2).2.1.all (fun s => decide (0 ≤ s))) = true := by
  have hsw := should_wait_snd_nonneg (p.getState ep) now 3
  simp only [SearchPlanner.wait_if_needed]
  split_ifs with h1 h2 h3 h4 h5
  · constructor
    · show 0 ≤ ((p.getState ep).should_wait now 3).2 + 1
      linarith
    · simp only [List.all_cons, List.all_nil, Bool.and_true, decide_eq_true_eq]
      linarith
  · constructor
    · show (0 : ℚ) ≤ p.min_request_interval - _
      linarith
    · simp only [List.all_cons, List.all_nil, Bool.and_true, decide_eq_true_eq]
      linarith
  · exact ⟨le_refl 0, rfl⟩
  · constructor
    · show (0 : ℚ) ≤ 60 - (now - (p.getState ep).window_start) + 1
      linarith
    · simp only [List.all_cons, List.all_nil, Bool.and_true, decide_eq_true_eq]
      linarith
  · constructor
    · show (0 : ℚ) ≤ p.min_request_interval - _
      linarith
    · simp only [List.all_cons, List.all_nil, Bool.and_true, decide_eq_true_eq]
      linarith
  · exact ⟨le_refl 0, rfl⟩

/-- C10: on a freshly constructed planner with no recorded requests and no
quota headers seen, the first `wait_if_needed` call — for any endpoint
class — takes the server-quota branch (default remaining `0` is at or
below the safety margin `3`), the computed wait is `0` (default
`reset_time = 0` and `now ≥ 0`), so it sleeps exactly the 1-second buffer
and returns `1`. -/
theorem C10_fresh_planner_first_wait (ep : Endpoint) (t0 now now2 : ℚ)
    (hnow : 0 ≤ now) :
    ((freshPlanner t0).getState ep).should_wait now 3 = (true, 0)
    ∧ (freshPlanner t0).wait_if_needed ep now now2 = (1, [1], freshPlanner t0) := by
  have hst : ((freshPlanner t0).getState ep).remaining = 0
      ∧ ((freshPlanner t0).getState ep).reset_time = 0 := by
    cases ep <;> exact ⟨rfl, rfl⟩
  have hsw : ((freshPlanner t0).getState ep).should_wait now 3 = (true, 0) := by
    unfold RateLimitState.should_wait
    rw [if_pos (by rw [hst.1]; norm_num)]
    rw [hst.2]
    have hmax : max 0 (0 - now) = (0 : ℚ) := max_eq_left (by linarith)
    rw [hmax]
  refine ⟨hsw, ?_⟩
  simp only [SearchPlanner.wait_if_needed, hsw]
  norm_num

/-- C10 witness: the theorem instantiated at the search endpoint with
construction time and clock `0`. -/
theorem C10_fresh_planner_witness :
    (0 : ℚ) ≤ 0
    ∧ (((freshPlanner 0).getState .search).should_wait 0 3 = (true, 0)
        ∧ (freshPlanner 0).wait_if_needed .search 0 0 = (1, [1], freshPlanner 0)) :=
  ⟨le_refl 0, C10_fresh_planner_first_wait .search 0 0 0 (le_refl 0)⟩

/-! ## Concept extraction (C9) -/

theorem firstOccurAux_subset {α : Type} [DecidableEq α] :
    ∀ (l seen : List α) (x : α), x ∈ firstOccurAux seen l → x ∈ l := by
  intro l
  induction l with
  | nil => intro seen x h; simp [firstOccurAux] at h
  | cons y ys ih =>
    intro seen x h
    unfold firstOccurAux at h
    split at h
    · exact List.mem_cons_of_mem y (ih seen x h)
    · rcases List.mem_cons.mp h with h | h
      · exact h ▸ List.mem_cons_self y ys
      · exact List.mem_cons_of_mem y (ih (y :: seen) x h)

theorem mem_insertDescBy {α β : Type} [LinearOrder β] (key : α → β) (a x : α) :
    ∀ (l : List α), x ∈ insertDescBy key a l → x = a ∨ x ∈ l := by
  intro l
  induction l with
  | nil =>
    intro h
    simp only [insertDescBy] at h
    simpa using h
  | cons y ys ih =>
    intro h
    unfold insertDescBy at h
    split at h
    · rcases List.mem_cons.mp h with h | h
      · exact Or.inr (h ▸ List.mem_cons_self y ys)
      · rcases ih h with h | h
        · exact Or.inl h
        · exact Or.inr (List.mem_cons_of_mem y h)
    · rcases List.mem_cons.mp h with h | h
      · exact Or.inl h
      · exact Or.inr h

theorem mem_sortDescBy_foldl {α β : Type} [LinearOrder β] (key : α → β) :
    ∀ (l acc : List α) (x : α),
      x ∈ l.foldl (fun acc a => insertDescBy key a acc) acc → x ∈ acc ∨ x ∈ l := by
  intro l
  induction l with
  | nil => intro acc x h; exact Or.inl h
  | cons y ys ih =>
    intro acc x h
    simp only [List.foldl_cons] at h
    rcases ih (insertDescBy key y acc) x h with h | h
    · rcases mem_insertDescBy key y x acc h with h | h
      · exact Or.inr (h ▸ List.mem_cons_self y ys)
      · exact Or.inl h
    · exact Or.inr (List.mem_cons_of_mem y h)

theorem mem_sortDescBy {α β : Type} [LinearOrder β] (key : α → β) (l : List α)
    (x : α) (h : x ∈ sortDescBy key l) : x ∈ l := by
  rcases mem_sortDescBy_foldl key l [] x h with h | h
  · simp at h
  · exact h

theorem buildOut_mem (topk : ℕ) :
    ∀ (l : List (String × ℚ)) (out : List String) (s : String),
      s ∈ buildOut topk l out → s ∈ out ∨ ∃ pw ∈ l, s = pw.1.take 40 := by
  intro l
  induction l with
  | nil => intro out s h; exact Or.inl h
  | cons pw rest ih =>
    intro out s h
    unfold buildOut at h
    split at h
    · exact Or.inl h
    · split at h
      · rcases ih out s h with h | h
        · exact Or.inl h
        · obtain ⟨q, hq, hs⟩ := h
          exact Or.inr ⟨q, List.mem_cons_of_mem pw hq, hs⟩
      · rcases ih (out ++ [pw.1.take 40]) s h with h | h
        · rcases List.mem_append.mp h with h | h
          · exact Or.inl h
          · have hs : s = pw.1.take 40 := by simpa using h
            exact Or.inr ⟨pw, List.mem_cons_self pw rest, hs⟩
        · obtain ⟨q, hq, hs⟩ := h
          exact Or.inr ⟨q, List.mem_cons_of_mem pw hq, hs⟩

theorem count_zip_tail_le : ∀ (l : List String) (a b : String),
    (l.zip l.tail).count (a, b) ≤ l.count a
  | [], _, _ => by simp
  | [x], _, _ => by simp
  | x :: y :: rest, a, b => by
    have ih := count_zip_tail_le (y :: rest) a b
    have hz : ((x :: y :: rest).zip (x :: y :: rest).tail)
        = (x, y) :: ((y :: rest).zip (y :: rest).tail) := rfl
    rw [hz, List.count_cons, List.count_cons]
    by_cases hpair : (((x, y) == (a, b)) = true)
    · have hxa : (x == a) = true :=
        beq_iff_eq.mpr (congrArg Prod.fst (beq_iff_eq.mp hpair))
      rw [if_pos hpair, if_pos hxa]
      omega
    · rw [if_neg hpair]
      by_cases hxa : ((x == a) = true)
      · rw [if_pos hxa]
        omega
      · rw [if_neg hxa]
        omega

theorem phrasesOf_mem (toks : List String) (pw : String × ℚ)
    (h : pw ∈ phrasesOf toks) :
    (∃ a b, pw.1 = a ++ " " ++ b ∧ 2 ≤ (bigramPairs toks).count (a, b))
    ∨ 2 ≤ toks.count pw.1 := by
  unfold phrasesOf at h
  have h2 := mem_sortDescBy _ _ _ h
  rcases List.mem_append.mp h2 with h3 | h3
  · obtain ⟨ab, _, heq⟩ := List.mem_filterMap.mp h3
    by_cases hc : 2 ≤ (bigramPairs toks).count ab
    · rw [if_pos hc] at heq
      injection heq with heq2
      subst heq2
      left
      refine ⟨ab.1, ab.2, rfl, ?_⟩
      rw [Prod.mk.eta]
      exact hc
    · rw [if_neg hc] at heq
      cases heq
  · obtain ⟨t, _, heq⟩ := List.mem_filterMap.mp h3
    by_cases hc : 2 ≤ toks.count t
    · rw [if_pos hc] at heq
      injection heq with heq2
      subst heq2
      exact Or.inr hc
    · rw [if_neg hc] at heq
      cases heq

theorem phrasesOf_nil (toks : List String)
    (h1 : ∀ t ∈ toks, toks.count t = 1) : phrasesOf toks = [] := by
  unfold phrasesOf
  have hbig : (firstOccur (bigramPairs toks)).filterMap (fun ab =>
      if 2 ≤ (bigramPairs toks).count ab
      then some (ab.1 ++ " " ++ ab.2, ((bigramPairs toks).count ab : ℚ) * 1.5)
      else none) = [] := by
    rw [List.filterMap_eq_nil_iff]
    intro ab hab
    have hle1 : (bigramPairs toks).count ab ≤ (toks.zip toks.tail).count ab :=
      (List.filter_sublist _).count_le ab
    have hle2 := count_zip_tail_le toks ab.1 ab.2
    rw [Prod.mk.eta] at hle2
    have hcnt : (bigramPairs toks).count ab ≤ toks.count ab.1 :=
      le_trans hle1 hle2
    by_cases hmem1 : ab.1 ∈ toks
    · have h11 := h1 ab.1 hmem1
      rw [if_neg (by omega)]
    · have h0 : toks.count ab.1 = 0 := List.count_eq_zero.mpr hmem1
      rw [if_neg (by omega)]
  have huni : (firstOccur toks).filterMap (fun t =>
      if 2 ≤ toks.count t then some (t, (toks.count t : ℚ)) else none) = [] := by
    rw [List.filterMap_eq_nil_iff]
    intro t ht
    have hmem : t ∈ toks := firstOccurAux_subset toks [] t ht
    rw [if_neg (by rw [h1 t hmem]; norm_num)]
  rw [hbig, huni]
  rfl

/-- C9: concept extraction has a frequency floor of 2 — a text whose
surviving tokens are all unique yields the empty concept list, and more
generally every returned concept is the 40-character truncation of a
bigram or unigram with frequency at least 2 (so no frequency-1 term is
ever surfaced). -/
theorem C9_concept_frequency_floor (text : String) (topk : ℕ) :
    ((∀ t ∈ tokensOf text, (tokensOf text).count t = 1) →
      extract_concepts text topk = [])
    ∧ (∀ s ∈ extract_concepts text topk, ∃ p : String,
        s = p.take 40
        ∧ ((∃ a b, p = a ++ " " ++ b
              ∧ 2 ≤ (bigramPairs (tokensOf text)).count (a, b))
            ∨ 2 ≤ (tokensOf text).count p)) := by
  constructor
  · intro h1
    unfold extract_concepts
    rw [phrasesOf_nil (tokensOf text) h1]
    rfl
  · intro s hs
    unfold extract_concepts at hs
    rcases buildOut_mem topk _ [] s hs with h | h
    · simp at h
    · obtain ⟨pw, hpw, hs40⟩ := h
      rcases phrasesOf_mem _ pw hpw with hbig | hcnt
      · obtain ⟨a, b, hab, hcnt⟩ := hbig
        exact ⟨pw.1, hs40, Or.inl ⟨a, b, hab, hcnt⟩⟩
      · exact ⟨pw.1, hs40, Or.inr hcnt⟩

/-- C9 witness: a three-word text with all-distinct tokens yields the
empty concept list. -/
theorem C9_concept_witness : extract_concepts ("Alpha beta gamma") 8 = [] :=
  (C9_concept_frequency_floor ("Alpha beta gamma") 8).1 (by decide)

end GitRecombo
